import Mathlib

/-!
Verification of `.github/scripts/cherrypick.py` from wireapp/wire-builds.

The script reads `build.json` at a target and a source git revision, overwrites
the entries of the target manifest's `helmCharts` mapping named on the command
line with the corresponding entries of the source manifest, and prints the
merged manifest as JSON on standard output.

The embedding below models:
  * JSON values (`JVal`, with objects as insertion-ordered key/value lists,
    exactly the observable structure of Python dicts built by `json.loads`;
    JSON numbers are modelled as integers — the manifests manipulated by the
    script contain no floats, and Python ints are arbitrary precision like
    `Int`);
  * `json.dumps` (`dumps`/`serVal`, with the default `", "` / `": "`
    separators; the escaper covers `\` and `"`, the characters that interact
    with the round trip — `json.dumps` additionally escapes control and
    non-ASCII characters, which affects formatting only);
  * `json.loads` (`loads`/`parseVal`, a fuel-indexed recursive-descent parser
    for exactly the grammar the serializer emits, plus surrounding
    whitespace);
  * `str.split(',')` (`splitCommas`);
  * `get_build` with the `git show` subprocess as an injectable capability
    (`String → ProcResult`), as the spec's design notes direct;
  * `main` (`runMain`), returning `Except ScriptError String` where `.ok txt`
    means `txt` was printed on stdout and the process exits zero, and
    `.error` means the corresponding uncaught Python exception
    (`ScriptError`) terminated the process with no output on stdout.
-/

mutual
/-- JSON values as produced by `json.loads`: objects keep key insertion order,
numbers are integers. Mutual inductives stand in for `List`-nested ones to get
clean mutual recursion and induction. -/
inductive JVal where
  | null : JVal
  | bool (b : Bool) : JVal
  | num (n : Int) : JVal
  | str (s : String) : JVal
  | arr (xs : JArr) : JVal
  | obj (kvs : JObj) : JVal

inductive JArr where
  | nil : JArr
  | cons (v : JVal) (rest : JArr) : JArr

inductive JObj where
  | nil : JObj
  | cons (k : String) (v : JVal) (rest : JObj) : JObj
end

/-- Python `d[k]` on a dict: first (unique) matching key. -/
def lookupObj : JObj → String → Option JVal
  | .nil, _ => none
  | .cons k v rest, key => if k = key then some v else lookupObj rest key

/-- Python `d[k] = v` on a dict: replace in place if the key exists, else
append, preserving insertion order. -/
def setObj : JObj → String → JVal → JObj
  | .nil, key, val => .cons key val .nil
  | .cons k v rest, key, val =>
    if k = key then .cons k val rest else .cons k v (setObj rest key val)

/-- Python `m[k]` on a manifest value: a lookup that succeeds only when the
value is a dict (a non-dict raises `TypeError`/`KeyError`, i.e. fails). -/
def getKey : JVal → String → Option JVal
  | .obj o, k => lookupObj o k
  | _, _ => none

/-- Python `m["helmCharts"][c]`: fails unless `m` is a dict whose
`helmCharts` entry is itself a dict containing `c`. -/
def helmLookup (m : JVal) (c : String) : Option JVal :=
  match getKey m "helmCharts" with
  | some (.obj ho) => lookupObj ho c
  | _ => none

/-- Whether `m["helmCharts"][c] = v` can succeed as an assignment target:
`m` is a dict whose `helmCharts` entry is a dict. -/
def targetReady : JVal → Bool
  | .obj o =>
    match lookupObj o "helmCharts" with
    | some (.obj _) => true
    | _ => false
  | _ => false

/-- One loop iteration of `main`:
`build_json_target['helmCharts'][chart] = build_json_source['helmCharts'][chart]`.
The right-hand side is evaluated first, as in Python; any failed lookup
raises (returns `none`). -/
def setChart (source target : JVal) (chart : String) : Option JVal :=
  match helmLookup source chart with
  | none => none
  | some v =>
    match target with
    | .obj tkv =>
      match lookupObj tkv "helmCharts" with
      | some (.obj ho) =>
        some (.obj (setObj tkv "helmCharts" (.obj (setObj ho chart v))))
      | _ => none
    | _ => none

/-- The `for chart in charts` loop of `main`: the first failure aborts the
whole merge. -/
def mergeCharts (target source : JVal) : List String → Option JVal
  | [] => some target
  | c :: cs =>
    match setChart source target c with
    | some t1 => mergeCharts t1 source cs
    | none => none

/-- Python `s.split(',')` (single-character separator, no trimming):
accumulator holds the current field reversed. -/
def splitCommasAux : List Char → List Char → List String
  | [], acc => [String.mk acc.reverse]
  | c :: rest, acc =>
    if c = ',' then String.mk acc.reverse :: splitCommasAux rest []
    else splitCommasAux rest (c :: acc)

/-- Python `chart_list.split(',')`. -/
def splitCommas (s : String) : List String := splitCommasAux s.data []

/-! Serialization: the model of `json.dumps` with its default separators
`", "` and `": "`. -/

/-- The ten decimal digit characters. -/
def digitChars : List Char := (List.range 10).map (fun d => Char.ofNat (48 + d))

/-- Decimal digit test used by the number lexer. -/
def isDig (c : Char) : Bool := digitChars.contains c

/-- Digit character of `d` (meaningful for `d < 10`). -/
def digCh (d : Nat) : Char := Char.ofNat (48 + d)

/-- Decimal digits of `n`, most significant first, with explicit fuel so that
the definition is structurally recursive and kernel-reducible. -/
def natToDigitsF : Nat → Nat → List Char
  | 0, _ => []
  | fuel + 1, n =>
    if n < 10 then [digCh n]
    else natToDigitsF fuel (n / 10) ++ [digCh (n % 10)]

/-- Decimal digits of `n`, as printed by Python `repr` for a nonnegative int. -/
def natToDigits (n : Nat) : List Char := natToDigitsF (n + 1) n

/-- Numeric value of a digit string (most significant first). -/
def digitsToNat (ds : List Char) : Nat :=
  ds.foldl (fun a c => 10 * a + (c.toNat - 48)) 0

/-- Python decimal rendering of an integer. -/
def serInt (n : Int) : List Char :=
  if n < 0 then '-' :: natToDigits n.natAbs else natToDigits n.toNat

/-- JSON string escaping for the two characters that interact with the
round trip. `json.dumps` additionally escapes control and non-ASCII
characters; those extra escapes change the emitted bytes, not the parsed
value, and no claim depends on them. -/
def escapeChar (c : Char) : List Char :=
  if c = '\\' then ['\\', '\\']
  else if c = '"' then ['\\', '"']
  else [c]

/-- Escape every character of a string body. -/
def escapeString : List Char → List Char
  | [] => []
  | c :: cs => escapeChar c ++ escapeString cs

mutual
/-- Serialized form of a JSON value, per `json.dumps` with default
separators. -/
def serVal : JVal → List Char
  | .null => 'n' :: ['u', 'l', 'l']
  | .bool true => 't' :: ['r', 'u', 'e']
  | .bool false => 'f' :: ['a', 'l', 's', 'e']
  | .num n => serInt n
  | .str s => '"' :: (escapeString s.data ++ ['"'])
  | .arr a => '[' :: serArr a
  | .obj o => '{' :: serObj o

/-- Everything after the opening `[`. -/
def serArr : JArr → List Char
  | .nil => [']']
  | .cons v rest => serVal v ++ serArrTail rest

/-- Separator-prefixed remaining elements, ending with `]`. -/
def serArrTail : JArr → List Char
  | .nil => [']']
  | .cons v rest => ',' :: ' ' :: (serVal v ++ serArrTail rest)

/-- Everything after the opening `{`. -/
def serObj : JObj → List Char
  | .nil => ['}']
  | .cons k v rest =>
    '"' :: (escapeString k.data ++ '"' :: ':' :: ' ' :: (serVal v ++ serObjTail rest))

/-- Separator-prefixed remaining members, ending with `}`. -/
def serObjTail : JObj → List Char
  | .nil => ['}']
  | .cons k v rest =>
    ',' :: ' ' :: '"' ::
      (escapeString k.data ++ '"' :: ':' :: ' ' :: (serVal v ++ serObjTail rest))
end

/-- The text `json.dumps` would print for this manifest. -/
def dumps (v : JVal) : String := String.mk (serVal v)

/-! Parsing: the model of `json.loads`, a recursive-descent parser for the
grammar the serializer emits (plus insignificant whitespace). Fuel makes the
mutual recursion structural, hence kernel-reducible; `loads` supplies fuel
that provably suffices for every serializer output. -/

/-- JSON insignificant whitespace. -/
def isWs (c : Char) : Bool := c = ' ' || c = '\t' || c = '\n' || c = '\r'

/-- Skip insignificant whitespace. -/
def skipWs (cs : List Char) : List Char := cs.dropWhile isWs

/-- Require the literal characters `es` at the head of the input. -/
def expectChars : List Char → List Char → Option (List Char)
  | [], cs => some cs
  | _ :: _, [] => none
  | e :: es, c :: cs => if c = e then expectChars es cs else none

/-- Meaning of a backslash escape. The serializer emits only `\\` and `\"`;
the named single-character escapes of JSON are also understood. -/
def unescapeChar (c : Char) : Char :=
  if c = 'n' then '\n'
  else if c = 't' then '\t'
  else if c = 'r' then '\r'
  else if c = 'b' then '\x08'
  else if c = 'f' then '\x0c'
  else c

/-- Parse a string body up to the closing quote. -/
def parseStringBody : List Char → Option (List Char × List Char)
  | [] => none
  | c :: rest =>
    if c = '"' then some ([], rest)
    else if c = '\\' then
      match rest with
      | [] => none
      | e :: rest2 => (parseStringBody rest2).map (fun p => (unescapeChar e :: p.1, p.2))
    else (parseStringBody rest).map (fun p => (c :: p.1, p.2))

/-- Parse a nonempty run of decimal digits. -/
def parseDigits (cs : List Char) : Option (Nat × List Char) :=
  let ds := cs.takeWhile isDig
  if ds.isEmpty then none else some (digitsToNat ds, cs.dropWhile isDig)

/-- Parse an optionally negated decimal integer. -/
def parseIntTok (cs : List Char) : Option (Int × List Char) :=
  if cs.head? = some '-' then
    (parseDigits cs.tail).map (fun p => (-(p.1 : Int), p.2))
  else
    (parseDigits cs).map (fun p => ((p.1 : Int), p.2))

mutual
/-- Parse one JSON value after skipping whitespace. -/
def parseVal : Nat → List Char → Option (JVal × List Char)
  | 0, _ => none
  | fuel + 1, cs =>
    match skipWs cs with
    | [] => none
    | c :: rest =>
      if c = 'n' then (expectChars ['u', 'l', 'l'] rest).map (fun r => (JVal.null, r))
      else if c = 't' then (expectChars ['r', 'u', 'e'] rest).map (fun r => (JVal.bool true, r))
      else if c = 'f' then (expectChars ['a', 'l', 's', 'e'] rest).map (fun r => (JVal.bool false, r))
      else if c = '"' then (parseStringBody rest).map (fun p => (JVal.str (String.mk p.1), p.2))
      else if c = '[' then parseArrBody fuel (skipWs rest)
      else if c = '{' then parseObjBody fuel (skipWs rest)
      else (parseIntTok (c :: rest)).map (fun p => (JVal.num p.1, p.2))

/-- Parse the inside of an array, the opening bracket already consumed. -/
def parseArrBody : Nat → List Char → Option (JVal × List Char)
  | 0, _ => none
  | fuel + 1, cs =>
    if cs.head? = some ']' then some (.arr .nil, cs.tail)
    else
      match parseVal fuel cs with
      | none => none
      | some (v, r) =>
        match parseArrTail fuel r with
        | none => none
        | some (tail, r2) => some (.arr (.cons v tail), r2)

/-- Parse `, elem ... ]` after an array element. -/
def parseArrTail : Nat → List Char → Option (JArr × List Char)
  | 0, _ => none
  | fuel + 1, cs =>
    match skipWs cs with
    | ']' :: r => some (.nil, r)
    | ',' :: r =>
      match parseVal fuel r with
      | none => none
      | some (v, r2) =>
        match parseArrTail fuel r2 with
        | none => none
        | some (tail, r3) => some (.cons v tail, r3)
    | _ => none

/-- Parse one `"key": value` member. -/
def parseMember : Nat → List Char → Option ((String × JVal) × List Char)
  | 0, _ => none
  | fuel + 1, cs =>
    if cs.head? = some '"' then
      match parseStringBody cs.tail with
      | none => none
      | some (k, r) =>
        match skipWs r with
        | ':' :: r2 =>
          match parseVal fuel r2 with
          | none => none
          | some (v, r3) => some ((String.mk k, v), r3)
        | _ => none
    else none

/-- Parse the inside of an object, the opening brace already consumed. -/
def parseObjBody : Nat → List Char → Option (JVal × List Char)
  | 0, _ => none
  | fuel + 1, cs =>
    if cs.head? = some '}' then some (.obj .nil, cs.tail)
    else
      match parseMember fuel cs with
      | none => none
      | some (kv, r) =>
        match parseObjTail fuel r with
        | none => none
        | some (tail, r2) => some (.obj (.cons kv.1 kv.2 tail), r2)

/-- Parse `, "key": value ... }` after an object member. -/
def parseObjTail : Nat → List Char → Option (JObj × List Char)
  | 0, _ => none
  | fuel + 1, cs =>
    match skipWs cs with
    | '}' :: r => some (.nil, r)
    | ',' :: r =>
      match parseMember fuel (skipWs r) with
      | none => none
      | some (kv, r2) =>
        match parseObjTail fuel r2 with
        | none => none
        | some (tail, r3) => some (.cons kv.1 kv.2 tail, r3)
    | _ => none
end

/-- The model of `json.loads`: parse one value, allow surrounding
whitespace, require the whole input consumed. The fuel `2 * length + 2`
provably suffices for every text the serializer emits. -/
def loads (s : String) : Option JVal :=
  match parseVal (2 * s.data.length + 2) s.data with
  | some (v, rest) => if skipWs rest = [] then some v else none
  | none => none

/-- The rest of the input directly after a serialized number must not start
with a digit, or the number lexer would consume too much. Inside serializer
output this is always the case: a value is followed by `,`, `]`, `}`,
whitespace, or the end of the input. -/
def numSafe (cs : List Char) : Prop :=
  ∀ c, cs.head? = some c → isDig c = false

mutual
/-- Fuel sufficient for `parseVal` to parse a serialization of `v`. -/
def sizeV : JVal → Nat
  | .arr a => sizeA a + 1
  | .obj o => sizeO o + 1
  | _ => 1

/-- Fuel sufficient for `parseArrBody`/`parseArrTail` on a serialized tail. -/
def sizeA : JArr → Nat
  | .nil => 1
  | .cons v rest => sizeV v + sizeA rest + 1

/-- Fuel sufficient for `parseObjBody`/`parseObjTail` on a serialized tail. -/
def sizeO : JObj → Nat
  | .nil => 1
  | .cons _ v rest => sizeV v + sizeO rest + 2
end

/-! The process model: `get_build` and `main`. -/

/-- Result of `subprocess.run(['git', 'show', commit ++ ":build.json"],
capture_output=True, text=True)`. Following the spec's design note, the
version-control read is an injectable capability `String → ProcResult`. -/
structure ProcResult where
  returncode : Int
  stdout : String
  stderr : String

/-- The uncaught Python exceptions that can terminate the script. Any of
them means a non-zero exit with nothing printed on stdout. -/
inductive ScriptError where
  /-- The wrapped `Exception` raised by `get_build` on a non-zero
  `git show` exit; carries the formatted message. -/
  | retrieval (msg : String) : ScriptError
  /-- `json.loads` failure on the retrieved text, propagated as-is. -/
  | jsonParse : ScriptError
  /-- `KeyError`/`TypeError` from a failed manifest lookup in the loop. -/
  | lookup : ScriptError
  /-- `IndexError` from `sys.argv` when arguments are missing. -/
  | argMissing : ScriptError
deriving DecidableEq

/-- `get_build(commit)`: run `git show {commit}:build.json`; on non-zero
exit raise the wrapped exception, otherwise `json.loads` the stdout. -/
def get_build (git : String → ProcResult) (commit : String) :
    Except ScriptError JVal :=
  let result := git commit
  if result.returncode ≠ 0 then
    .error (.retrieval
      ("Failed to get build.json at commit " ++ commit ++ ": " ++ result.stderr))
  else
    match loads result.stdout with
    | some v => .ok v
    | none => .error .jsonParse

/-- `main()` (named `runMain` because Lean reserves `main`), with `argv` modelling the whole `sys.argv` (so `argv[0]` is the
program name). `.ok txt` means the process printed `txt` on stdout and
exited zero; `.error e` means exception `e` ended it with no stdout output.
`print` appends a newline to the `json.dumps` text. -/
def runMain (git : String → ProcResult) (argv : List String) :
    Except ScriptError String :=
  match argv with
  | _ :: target_commit :: source_commit :: chart_list :: _ =>
    match get_build git target_commit with
    | .error e => .error e
    | .ok build_json_target =>
      match get_build git source_commit with
      | .error e => .error e
      | .ok build_json_source =>
        match mergeCharts build_json_target build_json_source
          (splitCommas chart_list) with
        | some merged => .ok (dumps merged ++ "\n")
        | none => .error .lookup
  | _ => .error .argMissing

/-! Concrete fixtures used by the scenario claim and the witnesses. -/

/-- The scenario's target manifest. -/
def targetScenario : JVal :=
  .obj (.cons "helmCharts"
    (.obj (.cons "a" (.obj (.cons "v" (.num 1) .nil))
      (.cons "b" (.obj (.cons "v" (.num 2) .nil)) .nil))) .nil)

/-- The scenario's source manifest. -/
def sourceScenario : JVal :=
  .obj (.cons "helmCharts"
    (.obj (.cons "a" (.obj (.cons "v" (.num 9) .nil))
      (.cons "b" (.obj (.cons "v" (.num 2) .nil))
        (.cons "c" (.obj (.cons "v" (.num 3) .nil)) .nil)))) .nil)

/-- The scenario's expected merged manifest. -/
def mergedScenario : JVal :=
  .obj (.cons "helmCharts"
    (.obj (.cons "a" (.obj (.cons "v" (.num 9) .nil))
      (.cons "b" (.obj (.cons "v" (.num 2) .nil))
        (.cons "c" (.obj (.cons "v" (.num 3) .nil)) .nil)))) .nil)

/-- A fake `git show` that always fails with diagnostic `boom`. -/
def gitFailing : String → ProcResult := fun _ => ⟨1, "", "boom"⟩

/-- A fake `git show` that always succeeds and returns the scenario's source
manifest as its `build.json`. -/
def gitScenario : String → ProcResult := fun _ => ⟨0, dumps sourceScenario, ""⟩

example : splitCommas "" = [""] := rfl
example : splitCommas "a,b" = ["a", "b"] := rfl
example : splitCommas "," = ["", ""] := rfl
example : lookupObj (.cons "a" .null .nil) "a" = some .null := rfl
example : mergeCharts (.obj .nil) (.obj .nil) [] = some (.obj .nil) := rfl
example : loads "null" = some .null := rfl
example : loads " [1, -20]  " =
    some (.arr (.cons (.num 1) (.cons (.num (-20)) .nil))) := rfl
example : loads (dumps (.obj (.cons "a" (.num 3) .nil))) =
    some (.obj (.cons "a" (.num 3) .nil)) := rfl
example : (dumps (.obj (.cons "a" (.num 3) .nil))).data =
    ['{', '"', 'a', '"', ':', ' ', '3', '}'] := rfl
example : mergeCharts targetScenario sourceScenario ["a", "c"] =
    some mergedScenario := rfl
example : runMain gitScenario ["prog", "t", "s", "a"] =
    .ok (dumps sourceScenario ++ "\n") := rfl

/-! Dictionary update lemmas. -/

theorem lookupObj_setObj_self : ∀ (o : JObj) (k : String) (v : JVal),
    lookupObj (setObj o k v) k = some v
  | .nil, k, v => by simp [setObj, lookupObj]
  | .cons k0 v0 rest, k, v => by
    by_cases h : k0 = k
    · simp [setObj, lookupObj, h]
    · simp [setObj, lookupObj, h, lookupObj_setObj_self rest k v]

theorem lookupObj_setObj_other : ∀ (o : JObj) (k : String) (v : JVal)
    (q : String), q ≠ k → lookupObj (setObj o k v) q = lookupObj o q
  | .nil, k, v, q, hq => by
    simp [setObj, lookupObj, Ne.symm hq]
  | .cons k0 v0 rest, k, v, q, hq => by
    by_cases h : k0 = k
    · subst h
      simp [setObj, lookupObj, Ne.symm hq]
    · simp only [setObj, if_neg h]
      by_cases h0 : k0 = q
      · simp [lookupObj, h0]
      · simp [lookupObj, h0, lookupObj_setObj_other rest k v q hq]

/-! Anatomy of one loop iteration. -/

theorem setChart_eq {s t t1 : JVal} {c : String} (h : setChart s t c = some t1) :
    ∃ tkv ho v, t = JVal.obj tkv ∧
      lookupObj tkv "helmCharts" = some (.obj ho) ∧
      helmLookup s c = some v ∧
      t1 = JVal.obj (setObj tkv "helmCharts" (.obj (setObj ho c v))) := by
  unfold setChart at h
  split at h
  · exact Option.noConfusion h
  next v hv =>
    split at h
    next tkv =>
      split at h
      next ho hho =>
        exact ⟨tkv, ho, v, rfl, hho, hv, (Option.some.injEq _ _ ▸ h).symm⟩
      next => exact Option.noConfusion h
    next => exact Option.noConfusion h

theorem setChart_getKey_other {s t t1 : JVal} {c : String}
    (h : setChart s t c = some t1) {k : String} (hk : k ≠ "helmCharts") :
    getKey t1 k = getKey t k := by
  obtain ⟨tkv, ho, v, rfl, hho, hv, rfl⟩ := setChart_eq h
  simp [getKey, lookupObj_setObj_other _ _ _ _ hk]

theorem setChart_helm_other {s t t1 : JVal} {c : String}
    (h : setChart s t c = some t1) {q : String} (hq : q ≠ c) :
    helmLookup t1 q = helmLookup t q := by
  obtain ⟨tkv, ho, v, rfl, hho, hv, rfl⟩ := setChart_eq h
  simp [helmLookup, getKey, hho, lookupObj_setObj_self,
    lookupObj_setObj_other _ _ _ _ hq]

theorem setChart_helm_self {s t t1 : JVal} {c : String}
    (h : setChart s t c = some t1) : helmLookup t1 c = helmLookup s c := by
  obtain ⟨tkv, ho, v, rfl, hho, hv, rfl⟩ := setChart_eq h
  rw [hv]
  simp [helmLookup, getKey, lookupObj_setObj_self]

theorem setChart_ready {s t t1 : JVal} {c : String}
    (h : setChart s t c = some t1) : targetReady t1 = true := by
  obtain ⟨tkv, ho, v, rfl, hho, hv, rfl⟩ := setChart_eq h
  simp [targetReady, lookupObj_setObj_self]

theorem setChart_some_iff {s t : JVal} {c : String} :
    (∃ t1, setChart s t c = some t1) ↔
      helmLookup s c ≠ none ∧ targetReady t = true := by
  constructor
  · rintro ⟨t1, h⟩
    obtain ⟨tkv, ho, v, rfl, hho, hv, rfl⟩ := setChart_eq h
    exact ⟨by simp [hv], by simp [targetReady, hho]⟩
  · rintro ⟨hv, hr⟩
    obtain ⟨v, hv⟩ := Option.ne_none_iff_exists'.mp hv
    cases t with
    | obj tkv =>
      cases hho : lookupObj tkv "helmCharts" with
      | none => simp [targetReady, hho] at hr
      | some w =>
        cases w with
        | obj ho =>
          exact ⟨JVal.obj (setObj tkv "helmCharts" (JVal.obj (setObj ho c v))),
            by simp [setChart, hv, hho]⟩
        | null => simp [targetReady, hho] at hr
        | bool b => simp [targetReady, hho] at hr
        | num n => simp [targetReady, hho] at hr
        | str s0 => simp [targetReady, hho] at hr
        | arr a => simp [targetReady, hho] at hr
    | null => simp [targetReady] at hr
    | bool b => simp [targetReady] at hr
    | num n => simp [targetReady] at hr
    | str s0 => simp [targetReady] at hr
    | arr a => simp [targetReady] at hr

theorem setChart_none_of_source_miss {s t : JVal} {c : String}
    (h : helmLookup s c = none) : setChart s t c = none := by
  simp [setChart, h]

theorem setChart_none_of_target {s t : JVal} {c : String}
    (h : getKey t "helmCharts" = none) : setChart s t c = none := by
  unfold setChart
  cases hv : helmLookup s c with
  | none => rfl
  | some v =>
    cases t with
    | obj tkv =>
      have : lookupObj tkv "helmCharts" = none := h
      simp [this]
    | null => rfl
    | bool b => rfl
    | num n => rfl
    | str s0 => rfl
    | arr a => rfl

theorem helmLookup_none_of_no_helm {s : JVal}
    (h : getKey s "helmCharts" = none) (c : String) : helmLookup s c = none := by
  simp [helmLookup, h]

/-! The merge loop. -/

theorem mergeCharts_cons_some {t s o : JVal} {c : String} {cs : List String}
    (h : mergeCharts t s (c :: cs) = some o) :
    ∃ t1, setChart s t c = some t1 ∧ mergeCharts t1 s cs = some o := by
  cases hsc : setChart s t c with
  | none => rw [mergeCharts, hsc] at h; exact Option.noConfusion h
  | some t1 => rw [mergeCharts, hsc] at h; exact ⟨t1, rfl, h⟩

theorem mergeCharts_getKey_other {s : JVal} (names : List String) :
    ∀ {t o : JVal}, mergeCharts t s names = some o →
      ∀ {k : String}, k ≠ "helmCharts" → getKey o k = getKey t k := by
  induction names with
  | nil =>
    intro t o h k hk
    cases h
    rfl
  | cons c cs ih =>
    intro t o h k hk
    obtain ⟨t1, hsc, hrest⟩ := mergeCharts_cons_some h
    rw [ih hrest hk, setChart_getKey_other hsc hk]

theorem mergeCharts_helm_notmem {s : JVal} (names : List String) :
    ∀ {t o : JVal}, mergeCharts t s names = some o →
      ∀ {c : String}, c ∉ names → helmLookup o c = helmLookup t c := by
  induction names with
  | nil =>
    intro t o h c _
    cases h
    rfl
  | cons c0 cs ih =>
    intro t o h c hc
    obtain ⟨t1, hsc, hrest⟩ := mergeCharts_cons_some h
    have hne : c ≠ c0 := fun heq => hc (heq ▸ List.mem_cons_self c0 cs)
    have hnotm : c ∉ cs := fun hm => hc (List.mem_cons_of_mem c0 hm)
    rw [ih hrest hnotm, setChart_helm_other hsc hne]

theorem mergeCharts_helm_mem {s : JVal} (names : List String) :
    ∀ {t o : JVal}, mergeCharts t s names = some o →
      ∀ {c : String}, c ∈ names → helmLookup o c = helmLookup s c := by
  induction names with
  | nil =>
    intro t o h c hc
    exact absurd hc (List.not_mem_nil c)
  | cons c0 cs ih =>
    intro t o h c hc
    obtain ⟨t1, hsc, hrest⟩ := mergeCharts_cons_some h
    by_cases hmem : c ∈ cs
    · exact ih hrest hmem
    · have hc0 : c = c0 := (List.mem_cons.mp hc).resolve_right hmem
      subst hc0
      rw [mergeCharts_helm_notmem cs hrest hmem, setChart_helm_self hsc]

theorem mergeCharts_none_of_missing {s : JVal} (names : List String) :
    ∀ {t : JVal} {c : String}, c ∈ names → helmLookup s c = none →
      mergeCharts t s names = none := by
  induction names with
  | nil =>
    intro t c hc _
    exact absurd hc (List.not_mem_nil c)
  | cons c0 cs ih =>
    intro t c hc hmiss
    rcases List.mem_cons.mp hc with rfl | hmem
    · rw [mergeCharts, setChart_none_of_source_miss hmiss]
    · cases hsc : setChart s t c0 with
      | none => rw [mergeCharts, hsc]
      | some t1 => rw [mergeCharts, hsc]; exact ih hmem hmiss

theorem mergeCharts_ready {s : JVal} (names : List String) :
    ∀ {t o : JVal}, mergeCharts t s names = some o → names ≠ [] →
      targetReady o = true := by
  induction names with
  | nil => intro t o _ hne; exact absurd rfl hne
  | cons c0 cs ih =>
    intro t o h _
    obtain ⟨t1, hsc, hrest⟩ := mergeCharts_cons_some h
    cases cs with
    | nil =>
      cases hrest
      exact setChart_ready hsc
    | cons c1 cs1 => exact ih hrest (by simp)

theorem mergeCharts_ne_none_iff {s : JVal} (names : List String) :
    ∀ {t : JVal}, mergeCharts t s names ≠ none ↔
      ((∀ c ∈ names, helmLookup s c ≠ none) ∧
        (names = [] ∨ targetReady t = true)) := by
  induction names with
  | nil => intro t; simp [mergeCharts]
  | cons c0 cs ih =>
    intro t
    cases hsc : setChart s t c0 with
    | none =>
      rw [mergeCharts, hsc]
      constructor
      · intro h
        exact absurd rfl h
      · rintro ⟨hall, hready⟩
        have hready2 : targetReady t = true := hready.resolve_left (by simp)
        obtain ⟨t1, h1⟩ :=
          setChart_some_iff.mpr ⟨hall c0 (List.mem_cons_self c0 cs), hready2⟩
        rw [hsc] at h1
        exact absurd h1 (by simp)
    | some t1 =>
      rw [mergeCharts, hsc]
      have hcond := setChart_some_iff.mp ⟨t1, hsc⟩
      have hready1 := setChart_ready hsc
      rw [ih]
      constructor
      · rintro ⟨hall, -⟩
        refine ⟨?_, Or.inr hcond.2⟩
        intro c hc
        rcases List.mem_cons.mp hc with rfl | hm
        · exact hcond.1
        · exact hall c hm
      · rintro ⟨hall, -⟩
        exact ⟨fun c hc => hall c (List.mem_cons_of_mem c0 hc), Or.inr hready1⟩

/-! Claim theorems about the merge. -/

/-- C1: whenever the merge succeeds, the output agrees with the target
manifest on every top-level key other than `helmCharts` and on every
`helmCharts` entry not named in the list, and agrees with the source
manifest on every named `helmCharts` entry. -/
theorem merge_selective_overwrite (t s out : JVal) (names : List String)
    (h : mergeCharts t s names = some out) :
    (∀ k, k ≠ "helmCharts" → getKey out k = getKey t k) ∧
    (∀ c, c ∉ names → helmLookup out c = helmLookup t c) ∧
    (∀ c, c ∈ names → helmLookup out c = helmLookup s c) :=
  ⟨fun _ hk => mergeCharts_getKey_other names h hk,
   fun _ hc => mergeCharts_helm_notmem names h hc,
   fun _ hc => mergeCharts_helm_mem names h hc⟩

/-- Witness for C1, instantiated at the spec's scenario manifests. -/
theorem merge_selective_overwrite_witness :
    getKey mergedScenario "other" = getKey targetScenario "other" ∧
    helmLookup mergedScenario "b" = helmLookup targetScenario "b" ∧
    helmLookup mergedScenario "a" = helmLookup sourceScenario "a" :=
  let h := merge_selective_overwrite targetScenario sourceScenario
    mergedScenario ["a", "c"] rfl
  ⟨h.1 "other" (by decide), h.2.1 "b" (by decide), h.2.2 "a" (by decide)⟩

/-- C4: merging with the empty chart-name list returns the target manifest
unchanged. -/
theorem merge_empty_names_identity (t s : JVal) : mergeCharts t s [] = some t :=
  rfl

/-- C7: the spec's scenario — requested names may be absent from the target;
only the source is read, and the requested entry is inserted. -/
theorem merge_scenario_insert :
    mergeCharts targetScenario sourceScenario ["a", "c"] =
      some mergedScenario := rfl

/-- C5: an empty third argument splits into `[""]`, not `[]`: the script
attempts to replace the chart named `""` and the merge fails whenever the
source's `helmCharts` mapping has no `""` key. -/
theorem split_empty_selection :
    splitCommas "" = [""] ∧
    ∀ t s : JVal, helmLookup s "" = none →
      mergeCharts t s (splitCommas "") = none :=
  ⟨rfl, fun _ _ h =>
    mergeCharts_none_of_missing [""] (List.mem_singleton.mpr rfl) h⟩

/-- Witness for C5 at concrete manifests without a `""` chart. -/
theorem split_empty_selection_witness :
    mergeCharts (JVal.obj .nil) (JVal.obj .nil) (splitCommas "") = none :=
  split_empty_selection.2 (JVal.obj .nil) (JVal.obj .nil) rfl

/-- C3 counterexample: with an empty requested list the merge succeeds even
though neither manifest has a `helmCharts` key at all, so the claim's
universally quantified failure condition is false as stated. -/
theorem merge_missing_helm_counterexample :
    getKey (JVal.obj .nil) "helmCharts" = none ∧
    mergeCharts (JVal.obj .nil) (JVal.obj .nil) [] = some (JVal.obj .nil) :=
  ⟨rfl, rfl⟩

/-- C3 amended: the merge fails whenever the source's `helmCharts` mapping
lacks a requested name, or the requested list is nonempty and either
manifest lacks the `helmCharts` key entirely. -/
theorem merge_failure_conditions (t s : JVal) (names : List String)
    (h : (∃ c ∈ names, helmLookup s c = none) ∨
      (names ≠ [] ∧
        (getKey t "helmCharts" = none ∨ getKey s "helmCharts" = none))) :
    mergeCharts t s names = none := by
  rcases h with ⟨c, hc, hmiss⟩ | ⟨hne, hmiss⟩
  · exact mergeCharts_none_of_missing names hc hmiss
  · obtain ⟨c0, cs, rfl⟩ := List.exists_cons_of_ne_nil hne
    rcases hmiss with ht | hs
    · rw [mergeCharts, setChart_none_of_target ht]
    · rw [mergeCharts,
        setChart_none_of_source_miss (helmLookup_none_of_no_helm hs c0)]

/-- Witness for the amended C3: a nonempty list and a target without
`helmCharts`. -/
theorem merge_failure_conditions_witness :
    mergeCharts (JVal.obj .nil) sourceScenario ["a"] = none :=
  merge_failure_conditions (JVal.obj .nil) sourceScenario ["a"]
    (Or.inr ⟨by decide, Or.inl rfl⟩)

/-- C8: merging with `[a, b]` and with `[b, a]` fail together, and on
success the results are equal as Python dicts: equal on every top-level key
other than `helmCharts`, equal on every `helmCharts` entry (chart values are
copied verbatim, so entry-wise `Option` equality is structural equality),
and both have a dict `helmCharts` entry. Python `==` on dicts ignores the
insertion order, which is the only thing that can differ between the two
orders (a name absent from the target is appended). -/
theorem merge_order_independent (t s : JVal) (a b : String) (_hab : a ≠ b) :
    (mergeCharts t s [a, b] = none ↔ mergeCharts t s [b, a] = none) ∧
    (∀ o1 o2, mergeCharts t s [a, b] = some o1 →
      mergeCharts t s [b, a] = some o2 →
      (∀ k, k ≠ "helmCharts" → getKey o1 k = getKey o2 k) ∧
      (∀ c, helmLookup o1 c = helmLookup o2 c) ∧
      targetReady o1 = true ∧ targetReady o2 = true) := by
  have hperm : ∀ c : String, c ∈ [a, b] ↔ c ∈ [b, a] := by
    intro c
    simp only [List.mem_cons, List.not_mem_nil, or_false]
    exact or_comm
  have h1 := mergeCharts_ne_none_iff (s := s) [a, b] (t := t)
  have h2 := mergeCharts_ne_none_iff (s := s) [b, a] (t := t)
  rw [ne_eq] at h1 h2
  constructor
  · rw [← not_iff_not]
    rw [h1, h2]
    constructor
    · rintro ⟨hall, hr⟩
      exact ⟨fun c hc => hall c ((hperm c).mpr hc),
        Or.inr (hr.resolve_left (by simp))⟩
    · rintro ⟨hall, hr⟩
      exact ⟨fun c hc => hall c ((hperm c).mp hc),
        Or.inr (hr.resolve_left (by simp))⟩
  · intro o1 o2 h1 h2
    refine ⟨?_, ?_, mergeCharts_ready [a, b] h1 (by simp),
      mergeCharts_ready [b, a] h2 (by simp)⟩
    · intro k hk
      rw [mergeCharts_getKey_other [a, b] h1 hk,
        mergeCharts_getKey_other [b, a] h2 hk]
    · intro c
      by_cases hca : c = a
      · rw [mergeCharts_helm_mem [a, b] h1 (by simp [hca]),
          mergeCharts_helm_mem [b, a] h2 (by simp [hca])]
      · by_cases hcb : c = b
        · rw [mergeCharts_helm_mem [a, b] h1 (by simp [hcb]),
            mergeCharts_helm_mem [b, a] h2 (by simp [hcb])]
        · rw [mergeCharts_helm_notmem [a, b] h1 (by simp [hca, hcb]),
            mergeCharts_helm_notmem [b, a] h2 (by simp [hca, hcb])]

/-- Witness for C8 at the scenario manifests and names `a`, `c`. -/
theorem merge_order_independent_witness :
    targetReady mergedScenario = true ∧
    helmLookup mergedScenario "a" = helmLookup mergedScenario "a" :=
  let h := merge_order_independent targetScenario sourceScenario "a" "c"
    (by decide)
  let h2 := h.2 mergedScenario mergedScenario rfl rfl
  ⟨h2.2.2.1, h2.2.1 "a"⟩

/-! Number serialization round trip. -/

theorem digit_facts : ∀ c ∈ digitChars, isWs c = false ∧
    c ≠ 'n' ∧ c ≠ 't' ∧ c ≠ 'f' ∧ c ≠ '"' ∧ c ≠ '[' ∧ c ≠ '{' ∧
    c ≠ ']' ∧ c ≠ '}' ∧ c ≠ '-' ∧ c ≠ ',' ∧ c ≠ ':' := by decide

theorem isDig_mem {c : Char} (h : isDig c = true) : c ∈ digitChars := by
  simpa [isDig] using h

theorem digCh_isDig {d : Nat} (hd : d < 10) : isDig (digCh d) = true := by
  interval_cases d <;> decide

theorem digCh_mem {d : Nat} (hd : d < 10) : digCh d ∈ digitChars := by
  interval_cases d <;> decide

theorem digCh_val {d : Nat} (hd : d < 10) : (digCh d).toNat - 48 = d := by
  interval_cases d <;> decide

theorem digitsToNat_append_singleton (xs : List Char) (c : Char) :
    digitsToNat (xs ++ [c]) = 10 * digitsToNat xs + (c.toNat - 48) := by
  simp [digitsToNat, List.foldl_append]

theorem natToDigitsF_spec : ∀ (fuel n : Nat), n < fuel →
    (∀ c ∈ natToDigitsF fuel n, c ∈ digitChars) ∧
    natToDigitsF fuel n ≠ [] ∧
    digitsToNat (natToDigitsF fuel n) = n := by
  intro fuel
  induction fuel with
  | zero => intro n h; exact absurd h (Nat.not_lt_zero n)
  | succ fuel ih =>
    intro n hn
    by_cases h10 : n < 10
    · simp only [natToDigitsF, if_pos h10]
      refine ⟨?_, by simp, ?_⟩
      · intro c hc
        rw [List.mem_singleton] at hc
        subst hc
        exact digCh_mem h10
      · show digitsToNat ([] ++ [digCh n]) = n
        rw [digitsToNat_append_singleton, digCh_val h10]
        simp [digitsToNat]
    · have hpos : 0 < n := by omega
      have hdiv : n / 10 < n := Nat.div_lt_self hpos (by omega)
      have hrec : n / 10 < fuel := by omega
      obtain ⟨hdig, hne, hval⟩ := ih (n / 10) hrec
      have hmod : n % 10 < 10 := Nat.mod_lt n (by omega)
      simp only [natToDigitsF, if_neg h10]
      refine ⟨?_, by simp, ?_⟩
      · intro c hc
        rcases List.mem_append.mp hc with h | h
        · exact hdig c h
        · rw [List.mem_singleton] at h
          subst h
          exact digCh_mem hmod
      · rw [digitsToNat_append_singleton, hval, digCh_val hmod]
        omega

theorem natToDigits_spec (n : Nat) :
    (∀ c ∈ natToDigits n, c ∈ digitChars) ∧
    natToDigits n ≠ [] ∧
    digitsToNat (natToDigits n) = n :=
  natToDigitsF_spec (n + 1) n (by omega)

theorem takeWhile_append_of {p : Char → Bool} :
    ∀ (xs rest : List Char), (∀ c ∈ xs, p c = true) →
    (∀ c, rest.head? = some c → p c = false) →
    (xs ++ rest).takeWhile p = xs ∧ (xs ++ rest).dropWhile p = rest := by
  intro xs
  induction xs with
  | nil =>
    intro rest _ hrest
    cases rest with
    | nil => simp
    | cons c t =>
      have hc : p c = false := hrest c rfl
      simp [List.takeWhile_cons, List.dropWhile_cons, hc]
  | cons x xs ih =>
    intro rest hall hrest
    have hx : p x = true := hall x (List.mem_cons_self x xs)
    obtain ⟨h1, h2⟩ := ih rest (fun c hc => hall c (List.mem_cons_of_mem x hc)) hrest
    simp [List.takeWhile_cons, List.dropWhile_cons, hx, h1, h2]

theorem parseDigits_of_digits {m : Nat} {rest : List Char}
    (hrest : numSafe rest) :
    parseDigits (natToDigits m ++ rest) = some (m, rest) := by
  obtain ⟨hdig, hne, hval⟩ := natToDigits_spec m
  have hall : ∀ c ∈ natToDigits m, isDig c = true := by
    intro c hc
    simp [isDig, hdig c hc]
  obtain ⟨h1, h2⟩ := takeWhile_append_of (natToDigits m) rest hall hrest
  rw [parseDigits]
  simp only [h1, h2]
  rw [if_neg (by simp [List.isEmpty_iff, hne]), hval]

theorem serInt_head (n : Int) : ∃ c cs, serInt n = c :: cs ∧
    isWs c = false ∧ c ≠ 'n' ∧ c ≠ 't' ∧ c ≠ 'f' ∧ c ≠ '"' ∧
    c ≠ '[' ∧ c ≠ '{' ∧ c ≠ ']' ∧ c ≠ '}' := by
  by_cases hneg : n < 0
  · exact ⟨'-', natToDigits n.natAbs, by simp [serInt, hneg], by decide,
      by decide, by decide, by decide, by decide, by decide, by decide,
      by decide, by decide⟩
  · obtain ⟨hdig, hne, -⟩ := natToDigits_spec n.toNat
    obtain ⟨c, cs, hcons⟩ := List.exists_cons_of_ne_nil hne
    have hc : c ∈ digitChars := hdig c (by rw [hcons]; exact List.mem_cons_self c cs)
    obtain ⟨f1, f2, f3, f4, f5, f6, f7, f8, f9, -⟩ := digit_facts c hc
    exact ⟨c, cs, by simp [serInt, hneg, hcons], f1, f2, f3, f4, f5, f6, f7, f8, f9⟩

theorem parseIntTok_ser (n : Int) (rest : List Char) (hrest : numSafe rest) :
    parseIntTok (serInt n ++ rest) = some (n, rest) := by
  by_cases hneg : n < 0
  · rw [show serInt n = '-' :: natToDigits n.natAbs by simp [serInt, hneg]]
    rw [parseIntTok]
    simp only [List.cons_append, List.head?_cons, List.tail_cons, if_pos rfl]
    rw [parseDigits_of_digits hrest]
    simp only [Option.map_some']
    have : -(n.natAbs : Int) = n := by omega
    rw [this, if_pos trivial]
  · rw [show serInt n = natToDigits n.toNat by simp [serInt, hneg]]
    rw [parseIntTok]
    obtain ⟨hdig, hne, -⟩ := natToDigits_spec n.toNat
    obtain ⟨c, cs, hcons⟩ := List.exists_cons_of_ne_nil hne
    have hc : c ∈ digitChars := hdig c (by rw [hcons]; exact List.mem_cons_self c cs)
    obtain ⟨-, -, -, -, -, -, -, -, -, hcm, -, -⟩ := digit_facts c hc
    rw [if_neg (by simp [hcons, hcm])]
    rw [parseDigits_of_digits hrest]
    simp only [Option.map_some']
    have : (n.toNat : Int) = n := by omega
    rw [this]

/-! Whitespace, dispatch and string-body lemmas for the parser. -/

theorem skipWs_cons_false {c : Char} (h : isWs c = false) (cs : List Char) :
    skipWs (c :: cs) = c :: cs := by
  simp [skipWs, List.dropWhile_cons, h]

theorem skipWs_cons_true {c : Char} (h : isWs c = true) (cs : List Char) :
    skipWs (c :: cs) = skipWs cs := by
  simp [skipWs, List.dropWhile_cons, h]

theorem numSafe_cons {c : Char} (h : isDig c = false) (cs : List Char) :
    numSafe (c :: cs) := by
  intro x hx
  injection hx with h2
  subst h2
  exact h

theorem numSafe_nil : numSafe [] := by
  intro x hx
  exact Option.noConfusion hx

theorem parseVal_ws {fuel : Nat} {c : Char} (h : isWs c = true) (cs : List Char) :
    parseVal (fuel + 1) (c :: cs) = parseVal (fuel + 1) cs := by
  simp only [parseVal, skipWs_cons_true h]

theorem parseVal_int (fuel : Nat) (c : Char) (cs : List Char)
    (hws : isWs c = false) (h1 : c ≠ 'n') (h2 : c ≠ 't') (h3 : c ≠ 'f')
    (h4 : c ≠ '"') (h5 : c ≠ '[') (h6 : c ≠ '{') :
    parseVal (fuel + 1) (c :: cs) =
      (parseIntTok (c :: cs)).map (fun p => (JVal.num p.1, p.2)) := by
  simp only [parseVal, skipWs_cons_false hws]
  simp [h1, h2, h3, h4, h5, h6]

theorem parseVal_quote (fuel : Nat) (cs : List Char) :
    parseVal (fuel + 1) ('"' :: cs) =
      (parseStringBody cs).map (fun p => (JVal.str (String.mk p.1), p.2)) := rfl

theorem parseVal_lbracket (fuel : Nat) (cs : List Char) :
    parseVal (fuel + 1) ('[' :: cs) = parseArrBody fuel (skipWs cs) := rfl

theorem parseVal_lbrace (fuel : Nat) (cs : List Char) :
    parseVal (fuel + 1) ('{' :: cs) = parseObjBody fuel (skipWs cs) := rfl

theorem parseStringBody_escape : ∀ (s rest : List Char),
    parseStringBody (escapeString s ++ '"' :: rest) = some (s, rest)
  | [], rest => by
    show parseStringBody ('"' :: rest) = some ([], rest)
    rw [parseStringBody.eq_def]
    rfl
  | c :: cs, rest => by
    by_cases h1 : c = '\\'
    · subst h1
      show parseStringBody ('\\' :: '\\' :: (escapeString cs ++ '"' :: rest)) =
        some ('\\' :: cs, rest)
      rw [parseStringBody.eq_def]
      simp [parseStringBody_escape cs rest, unescapeChar]
    · by_cases h2 : c = '"'
      · subst h2
        show parseStringBody ('\\' :: '"' :: (escapeString cs ++ '"' :: rest)) =
          some ('"' :: cs, rest)
        rw [parseStringBody.eq_def]
        simp [parseStringBody_escape cs rest, unescapeChar]
      · have he : escapeString (c :: cs) = c :: escapeString cs := by
          simp [escapeString, escapeChar, h1, h2]
        rw [he, List.cons_append]
        rw [parseStringBody.eq_def]
        simp [h1, h2, parseStringBody_escape cs rest]

/-! Head characters of serializations. -/

theorem serVal_head_spec (v : JVal) : ∃ c cs, serVal v = c :: cs ∧
    isWs c = false ∧ c ≠ ']' ∧ c ≠ '}' := by
  cases v with
  | num n =>
    obtain ⟨c, cs, hser, hws, -, -, -, -, -, -, h8, h9⟩ := serInt_head n
    exact ⟨c, cs, hser, hws, h8, h9⟩
  | bool b =>
    cases b
    · exact ⟨_, _, rfl, by decide⟩
    · exact ⟨_, _, rfl, by decide⟩
  | null => exact ⟨_, _, rfl, by decide⟩
  | str s => exact ⟨_, _, rfl, by decide⟩
  | arr a => exact ⟨_, _, rfl, by decide⟩
  | obj o => exact ⟨_, _, rfl, by decide⟩

theorem serArr_head_ws (a : JArr) : ∃ c cs, serArr a = c :: cs ∧
    isWs c = false := by
  cases a with
  | nil => exact ⟨_, _, rfl, by decide⟩
  | cons v t =>
    obtain ⟨c, cs, hser, hws, -, -⟩ := serVal_head_spec v
    exact ⟨c, cs ++ serArrTail t, by simp [serArr, hser], hws⟩

theorem serObj_head_ws (o : JObj) : ∃ c cs, serObj o = c :: cs ∧
    isWs c = false := by
  cases o with
  | nil => exact ⟨_, _, rfl, by decide⟩
  | cons k v t =>
    exact ⟨_, _, rfl, by decide⟩

theorem skipWs_append_of_head {xs : List Char} (rest : List Char)
    (h : ∃ c cs, xs = c :: cs ∧ isWs c = false) :
    skipWs (xs ++ rest) = xs ++ rest := by
  obtain ⟨c, cs, rfl, hws⟩ := h
  rw [List.cons_append, skipWs_cons_false hws]

theorem serArrTail_numSafe (t : JArr) (rest : List Char) :
    numSafe (serArrTail t ++ rest) := by
  cases t with
  | nil => exact numSafe_cons (by decide) rest
  | cons v r => exact numSafe_cons (by decide) _

theorem serObjTail_numSafe (t : JObj) (rest : List Char) :
    numSafe (serObjTail t ++ rest) := by
  cases t with
  | nil => exact numSafe_cons (by decide) rest
  | cons k v r => exact numSafe_cons (by decide) _

theorem parseArrTail_comma (fuel : Nat) (cs : List Char) :
    parseArrTail (fuel + 1) (',' :: cs) =
      (match parseVal fuel cs with
       | none => none
       | some (v, r2) =>
         match parseArrTail fuel r2 with
         | none => none
         | some (tail, r3) => some (JArr.cons v tail, r3)) := rfl

theorem parseObjBody_quote (fuel : Nat) (cs : List Char) :
    parseObjBody (fuel + 1) ('"' :: cs) =
      (match parseMember fuel ('"' :: cs) with
       | none => none
       | some (kv, r) =>
         match parseObjTail fuel r with
         | none => none
         | some (tail, r2) => some (JVal.obj (JObj.cons kv.1 kv.2 tail), r2)) := rfl

theorem parseMember_quote (fuel : Nat) (cs : List Char) :
    parseMember (fuel + 1) ('"' :: cs) =
      (match parseStringBody cs with
       | none => none
       | some (k, r) =>
         match skipWs r with
         | ':' :: r2 =>
           (match parseVal fuel r2 with
            | none => none
            | some (v, r3) => some ((String.mk k, v), r3))
         | _ => none) := rfl

theorem parseObjTail_comma (fuel : Nat) (cs : List Char) :
    parseObjTail (fuel + 1) (',' :: cs) =
      (match parseMember fuel (skipWs cs) with
       | none => none
       | some (kv, r2) =>
         match parseObjTail fuel r2 with
         | none => none
         | some (tail, r3) => some (JObj.cons kv.1 kv.2 tail, r3)) := rfl

/-! Sizes are positive. -/

theorem sizeV_pos (v : JVal) : 1 ≤ sizeV v := by
  cases v <;> simp [sizeV]

theorem sizeA_pos (a : JArr) : 1 ≤ sizeA a := by
  cases a <;> simp [sizeA]

theorem sizeO_pos (o : JObj) : 1 ≤ sizeO o := by
  cases o <;> simp [sizeO]

/-! The serializer/parser round trip, by mutual structural induction. -/

mutual
theorem serVal_rt : ∀ (v : JVal) (fuel : Nat), sizeV v ≤ fuel →
    ∀ (rest : List Char), numSafe rest →
    parseVal fuel (serVal v ++ rest) = some (v, rest)
  | .null, fuel, hf, rest, _ => by
    obtain ⟨g, rfl⟩ : ∃ g, fuel = g + 1 :=
      ⟨fuel - 1, by have := sizeV_pos JVal.null; omega⟩
    rfl
  | .bool true, fuel, hf, rest, _ => by
    obtain ⟨g, rfl⟩ : ∃ g, fuel = g + 1 :=
      ⟨fuel - 1, by have := sizeV_pos (JVal.bool true); omega⟩
    rfl
  | .bool false, fuel, hf, rest, _ => by
    obtain ⟨g, rfl⟩ : ∃ g, fuel = g + 1 :=
      ⟨fuel - 1, by have := sizeV_pos (JVal.bool false); omega⟩
    rfl
  | .num n, fuel, hf, rest, hrest => by
    obtain ⟨g, rfl⟩ : ∃ g, fuel = g + 1 :=
      ⟨fuel - 1, by have := sizeV_pos (JVal.num n); omega⟩
    obtain ⟨c, cs, hser, hws, h1, h2, h3, h4, h5, h6, -, -⟩ := serInt_head n
    have hserv : serVal (JVal.num n) = serInt n := by simp [serVal]
    rw [hserv, hser, List.cons_append,
      parseVal_int g c (cs ++ rest) hws h1 h2 h3 h4 h5 h6,
      ← List.cons_append, ← hser, parseIntTok_ser n rest hrest]
    rfl
  | .str s, fuel, hf, rest, _ => by
    obtain ⟨g, rfl⟩ : ∃ g, fuel = g + 1 :=
      ⟨fuel - 1, by have := sizeV_pos (JVal.str s); omega⟩
    have hserv : serVal (JVal.str s) ++ rest =
        '"' :: (escapeString s.data ++ '"' :: rest) := by
      simp [serVal]
    rw [hserv, parseVal_quote, parseStringBody_escape s.data rest]
    rfl
  | .arr a, fuel, hf, rest, _ => by
    obtain ⟨g, rfl⟩ : ∃ g, fuel = g + 1 :=
      ⟨fuel - 1, by have := sizeV_pos (JVal.arr a); omega⟩
    have hb : sizeA a ≤ g := by simp [sizeV] at hf; omega
    have hserv : serVal (JVal.arr a) ++ rest = '[' :: (serArr a ++ rest) := by
      simp [serVal]
    rw [hserv, parseVal_lbracket, skipWs_append_of_head rest (serArr_head_ws a)]
    exact serArr_rt a g hb rest
  | .obj o, fuel, hf, rest, _ => by
    obtain ⟨g, rfl⟩ : ∃ g, fuel = g + 1 :=
      ⟨fuel - 1, by have := sizeV_pos (JVal.obj o); omega⟩
    have hb : sizeO o ≤ g := by simp [sizeV] at hf; omega
    have hserv : serVal (JVal.obj o) ++ rest = '{' :: (serObj o ++ rest) := by
      simp [serVal]
    rw [hserv, parseVal_lbrace, skipWs_append_of_head rest (serObj_head_ws o)]
    exact serObj_rt o g hb rest

theorem serArr_rt : ∀ (a : JArr) (fuel : Nat), sizeA a ≤ fuel →
    ∀ (rest : List Char),
    parseArrBody fuel (serArr a ++ rest) = some (JVal.arr a, rest)
  | .nil, fuel, hf, rest => by
    obtain ⟨g, rfl⟩ : ∃ g, fuel = g + 1 :=
      ⟨fuel - 1, by have := sizeA_pos JArr.nil; omega⟩
    rfl
  | .cons v t, fuel, hf, rest => by
    obtain ⟨g, rfl⟩ : ∃ g, fuel = g + 1 :=
      ⟨fuel - 1, by have := sizeA_pos (JArr.cons v t); omega⟩
    have hb1 : sizeV v ≤ g := by
      simp [sizeA] at hf
      have := sizeA_pos t
      omega
    have hb2 : sizeA t ≤ g := by
      simp [sizeA] at hf
      have := sizeV_pos v
      omega
    have hserv : serArr (JArr.cons v t) ++ rest =
        serVal v ++ (serArrTail t ++ rest) := by
      simp [serArr]
    obtain ⟨c, cs0, hser, hws, hne1, -⟩ := serVal_head_spec v
    have hhead : (serVal v ++ (serArrTail t ++ rest)).head? = some c := by
      rw [hser]
      simp
    rw [hserv]
    simp only [parseArrBody]
    rw [if_neg (by rw [hhead]; simp [hne1]),
      serVal_rt v g hb1 (serArrTail t ++ rest) (serArrTail_numSafe t rest)]
    simp only [serArrTail_rt t g hb2 rest]

theorem serArrTail_rt : ∀ (a : JArr) (fuel : Nat), sizeA a ≤ fuel →
    ∀ (rest : List Char),
    parseArrTail fuel (serArrTail a ++ rest) = some (a, rest)
  | .nil, fuel, hf, rest => by
    obtain ⟨g, rfl⟩ : ∃ g, fuel = g + 1 :=
      ⟨fuel - 1, by have := sizeA_pos JArr.nil; omega⟩
    rfl
  | .cons v t, fuel, hf, rest => by
    obtain ⟨g, rfl⟩ : ∃ g, fuel = g + 1 :=
      ⟨fuel - 1, by have := sizeA_pos (JArr.cons v t); omega⟩
    have hb1 : sizeV v ≤ g := by
      simp [sizeA] at hf
      have := sizeA_pos t
      omega
    have hb2 : sizeA t ≤ g := by
      simp [sizeA] at hf
      have := sizeV_pos v
      omega
    obtain ⟨g2, rfl⟩ : ∃ g2, g = g2 + 1 :=
      ⟨g - 1, by have := sizeV_pos v; omega⟩
    have hserv : serArrTail (JArr.cons v t) ++ rest =
        ',' :: ' ' :: (serVal v ++ (serArrTail t ++ rest)) := by
      simp [serArrTail]
    rw [hserv, parseArrTail_comma]
    simp only [parseVal_ws (by decide : isWs ' ' = true),
      serVal_rt v (g2 + 1) hb1 (serArrTail t ++ rest) (serArrTail_numSafe t rest),
      serArrTail_rt t (g2 + 1) hb2 rest]

theorem serObj_rt : ∀ (o : JObj) (fuel : Nat), sizeO o ≤ fuel →
    ∀ (rest : List Char),
    parseObjBody fuel (serObj o ++ rest) = some (JVal.obj o, rest)
  | .nil, fuel, hf, rest => by
    obtain ⟨g, rfl⟩ : ∃ g, fuel = g + 1 :=
      ⟨fuel - 1, by have := sizeO_pos JObj.nil; omega⟩
    rfl
  | .cons k v t, fuel, hf, rest => by
    obtain ⟨g, rfl⟩ : ∃ g, fuel = g + 1 :=
      ⟨fuel - 1, by have := sizeO_pos (JObj.cons k v t); omega⟩
    have hf2 : sizeV v + sizeO t + 2 ≤ g + 1 := by simp [sizeO] at hf; omega
    obtain ⟨g2, rfl⟩ : ∃ g2, g = g2 + 1 :=
      ⟨g - 1, by have := sizeV_pos v; have := sizeO_pos t; omega⟩
    obtain ⟨g3, rfl⟩ : ∃ g3, g2 = g3 + 1 :=
      ⟨g2 - 1, by have := sizeV_pos v; have := sizeO_pos t; omega⟩
    have hb1 : sizeV v ≤ g3 + 1 := by have := sizeO_pos t; omega
    have hb2 : sizeO t ≤ g3 + 2 := by have := sizeV_pos v; omega
    have hserv : serObj (JObj.cons k v t) ++ rest =
        '"' :: (escapeString k.data ++
          '"' :: ':' :: ' ' :: (serVal v ++ (serObjTail t ++ rest))) := by
      simp [serObj]
    rw [hserv, parseObjBody_quote, parseMember_quote,
      parseStringBody_escape k.data
        (':' :: ' ' :: (serVal v ++ (serObjTail t ++ rest)))]
    simp only [skipWs_cons_false (by decide : isWs ':' = false),
      parseVal_ws (by decide : isWs ' ' = true),
      serVal_rt v (g3 + 1) hb1 (serObjTail t ++ rest)
        (serObjTail_numSafe t rest),
      serObjTail_rt t (g3 + 2) hb2 rest]

theorem serObjTail_rt : ∀ (o : JObj) (fuel : Nat), sizeO o ≤ fuel →
    ∀ (rest : List Char),
    parseObjTail fuel (serObjTail o ++ rest) = some (o, rest)
  | .nil, fuel, hf, rest => by
    obtain ⟨g, rfl⟩ : ∃ g, fuel = g + 1 :=
      ⟨fuel - 1, by have := sizeO_pos JObj.nil; omega⟩
    rfl
  | .cons k v t, fuel, hf, rest => by
    obtain ⟨g, rfl⟩ : ∃ g, fuel = g + 1 :=
      ⟨fuel - 1, by have := sizeO_pos (JObj.cons k v t); omega⟩
    have hf2 : sizeV v + sizeO t + 2 ≤ g + 1 := by simp [sizeO] at hf; omega
    obtain ⟨g2, rfl⟩ : ∃ g2, g = g2 + 1 :=
      ⟨g - 1, by have := sizeV_pos v; have := sizeO_pos t; omega⟩
    obtain ⟨g3, rfl⟩ : ∃ g3, g2 = g3 + 1 :=
      ⟨g2 - 1, by have := sizeV_pos v; have := sizeO_pos t; omega⟩
    have hb1 : sizeV v ≤ g3 + 1 := by have := sizeO_pos t; omega
    have hb2 : sizeO t ≤ g3 + 2 := by have := sizeV_pos v; omega
    have hserv : serObjTail (JObj.cons k v t) ++ rest =
        ',' :: ' ' :: '"' :: (escapeString k.data ++
          '"' :: ':' :: ' ' :: (serVal v ++ (serObjTail t ++ rest))) := by
      simp [serObjTail]
    rw [hserv, parseObjTail_comma,
      skipWs_cons_true (by decide : isWs ' ' = true),
      skipWs_cons_false (by decide : isWs '"' = false),
      parseMember_quote,
      parseStringBody_escape k.data
        (':' :: ' ' :: (serVal v ++ (serObjTail t ++ rest)))]
    simp only [skipWs_cons_false (by decide : isWs ':' = false),
      parseVal_ws (by decide : isWs ' ' = true),
      serVal_rt v (g3 + 1) hb1 (serObjTail t ++ rest)
        (serObjTail_numSafe t rest),
      serObjTail_rt t (g3 + 2) hb2 rest]
end

/-! The fuel supplied by `loads` suffices for any serializer output. -/

mutual
theorem sizeV_le_len : ∀ (v : JVal), sizeV v + 1 ≤ 2 * (serVal v).length
  | .null => by simp [sizeV, serVal]
  | .bool true => by simp [sizeV, serVal]
  | .bool false => by simp [sizeV, serVal]
  | .num n => by
    obtain ⟨c, cs, hser, -⟩ := serInt_head n
    have : serVal (JVal.num n) = c :: cs := by simp [serVal, hser]
    simp [sizeV, this]
  | .str s => by
    simp [sizeV, serVal]
  | .arr a => by
    have := sizeA_le_serArr_len a
    simp [sizeV, serVal]
    omega
  | .obj o => by
    have := sizeO_le_serObj_len o
    simp [sizeV, serVal]
    omega

theorem sizeA_le_serArr_len : ∀ (a : JArr), sizeA a + 1 ≤ 2 * (serArr a).length
  | .nil => by simp [sizeA, serArr]
  | .cons v t => by
    have h1 := sizeV_le_len v
    have h2 := sizeA_le_serArrTail_len t
    simp [sizeA, serArr]
    omega

theorem sizeA_le_serArrTail_len : ∀ (a : JArr),
    sizeA a + 1 ≤ 2 * (serArrTail a).length
  | .nil => by simp [sizeA, serArrTail]
  | .cons v t => by
    have h1 := sizeV_le_len v
    have h2 := sizeA_le_serArrTail_len t
    simp [sizeA, serArrTail]
    omega

theorem sizeO_le_serObj_len : ∀ (o : JObj), sizeO o + 1 ≤ 2 * (serObj o).length
  | .nil => by simp [sizeO, serObj]
  | .cons k v t => by
    have h1 := sizeV_le_len v
    have h2 := sizeO_le_serObjTail_len t
    simp [sizeO, serObj]
    omega

theorem sizeO_le_serObjTail_len : ∀ (o : JObj),
    sizeO o + 1 ≤ 2 * (serObjTail o).length
  | .nil => by simp [sizeO, serObjTail]
  | .cons k v t => by
    have h1 := sizeV_le_len v
    have h2 := sizeO_le_serObjTail_len t
    simp [sizeO, serObjTail]
    omega
end

theorem isWs_not_dig {c : Char} (h : isWs c = true) : isDig c = false := by
  have hcases : ((c = ' ' ∨ c = '\t') ∨ c = '\n') ∨ c = '\r' := by
    simpa [isWs] using h
  rcases hcases with ((rfl | rfl) | rfl) | rfl <;> decide

theorem skipWs_all : ∀ (ws : List Char), (∀ c ∈ ws, isWs c = true) →
    skipWs ws = []
  | [], _ => rfl
  | c :: t, h => by
    rw [skipWs_cons_true (h c (List.mem_cons_self c t))]
    exact skipWs_all t (fun x hx => h x (List.mem_cons_of_mem c hx))

theorem loads_ser_ws (v : JVal) (ws : List Char)
    (hws : ∀ c ∈ ws, isWs c = true) :
    loads (String.mk (serVal v ++ ws)) = some v := by
  have hns : numSafe ws := by
    intro c hc
    cases ws with
    | nil => exact Option.noConfusion hc
    | cons w t =>
      injection hc with h2
      rw [← h2]
      exact isWs_not_dig (hws w (List.mem_cons_self w t))
  have hlen := sizeV_le_len v
  have hfuel : sizeV v ≤ 2 * (serVal v ++ ws).length + 2 := by
    rw [List.length_append]
    omega
  unfold loads
  rw [show (String.mk (serVal v ++ ws)).data = serVal v ++ ws from rfl]
  rw [serVal_rt v _ hfuel ws hns]
  show (if skipWs ws = [] then some v else none) = some v
  rw [if_pos (skipWs_all ws hws)]

theorem loads_dumps (v : JVal) : loads (dumps v) = some v := by
  have h : dumps v = String.mk (serVal v ++ []) := by simp [dumps]
  rw [h]
  exact loads_ser_ws v [] (fun c hc => absurd hc (List.not_mem_nil c))

theorem loads_dumps_newline (v : JVal) : loads (dumps v ++ "\n") = some v := by
  have h : dumps v ++ "\n" = String.mk (serVal v ++ ['\n']) := rfl
  rw [h]
  refine loads_ser_ws v ['\n'] ?_
  intro c hc
  rw [List.mem_singleton] at hc
  subst hc
  decide

/-! Claim theorems about the whole script. -/

/-- C9: whatever manifest the script emits, `json.loads` of the printed text
(the `json.dumps` output plus the trailing newline of `print`, which the
parser skips as whitespace) is structurally equal to the merged manifest. -/
theorem emit_roundtrip (git : String → ProcResult) (argv : List String)
    (txt : String) (h : runMain git argv = .ok txt) :
    ∃ v : JVal, txt = dumps v ++ "\n" ∧ loads txt = some v := by
  unfold runMain at h
  split at h
  · split at h
    · exact absurd h (by simp)
    · split at h
      · exact absurd h (by simp)
      · split at h
        next merged hm =>
          refine ⟨merged, (Except.ok.inj h).symm, ?_⟩
          rw [← Except.ok.inj h]
          exact loads_dumps_newline merged
        next => exact absurd h (by simp)
  · exact absurd h (by simp)

/-- Witness for C9 at a concrete successful invocation. -/
theorem emit_roundtrip_witness :
    ∃ v : JVal, dumps sourceScenario ++ "\n" = dumps v ++ "\n" ∧
      loads (dumps sourceScenario ++ "\n") = some v :=
  emit_roundtrip gitScenario ["prog", "t", "s", "a"]
    (dumps sourceScenario ++ "\n") rfl

/-- C6: `get_build` fails with the wrapped retrieval error carrying the
revision and the tool's stderr exactly when `git show` exits non-zero; on a
zero exit it returns the parse of the retrieved stdout (`json.loads`
failures propagate as their own error, never as a retrieval error). -/
theorem get_build_retrieval (git : String → ProcResult) (commit : String) :
    ((git commit).returncode ≠ 0 ↔
      get_build git commit = .error (.retrieval
        ("Failed to get build.json at commit " ++ commit ++ ": " ++
          (git commit).stderr))) ∧
    ((git commit).returncode = 0 →
      get_build git commit =
        (match loads (git commit).stdout with
         | some v => .ok v
         | none => .error .jsonParse)) := by
  constructor
  · constructor
    · intro h
      simp [get_build, h]
    · intro heq
      by_contra hz
      have hz2 : (git commit).returncode = 0 := by omega
      rw [get_build] at heq
      rw [if_neg (by omega)] at heq
      cases hl : loads (git commit).stdout with
      | some v => rw [hl] at heq; exact absurd heq (by simp)
      | none => rw [hl] at heq; simp at heq
  · intro h
    rw [get_build, if_neg (by omega)]

/-- Witness for C6: a failing `git show` yields exactly the wrapped message. -/
theorem get_build_retrieval_witness :
    (gitFailing "abc").returncode ≠ 0 ∧
    get_build gitFailing "abc" =
      .error (.retrieval "Failed to get build.json at commit abc: boom") :=
  ⟨by decide, (get_build_retrieval gitFailing "abc").1.mp (by decide)⟩

/-- C2: if any requested chart name is missing from the source manifest's
`helmCharts` mapping, the whole run fails with the lookup error and nothing
is printed on stdout (`.ok` is the only outcome that prints), regardless of
how many earlier names were already processed. -/
theorem merge_missing_no_output (git : String → ProcResult)
    (a0 tc sc cl : String) (rest : List String) (t s : JVal) (c : String)
    (ht : get_build git tc = .ok t) (hs : get_build git sc = .ok s)
    (hc : c ∈ splitCommas cl) (hmiss : helmLookup s c = none) :
    runMain git (a0 :: tc :: sc :: cl :: rest) = .error .lookup := by
  have hm : mergeCharts t s (splitCommas cl) = none :=
    mergeCharts_none_of_missing (splitCommas cl) hc hmiss
  have hargv : runMain git (a0 :: tc :: sc :: cl :: rest) =
      (match get_build git tc with
       | Except.error e => Except.error e
       | Except.ok bt =>
         match get_build git sc with
         | Except.error e => Except.error e
         | Except.ok bs =>
           match mergeCharts bt bs (splitCommas cl) with
           | some merged => Except.ok (dumps merged ++ "\n")
           | none => Except.error ScriptError.lookup) := rfl
  rw [hargv]
  simp only [ht, hs, hm]

/-- Witness for C2: requesting the absent chart `z` fails with no output. -/
theorem merge_missing_no_output_witness :
    runMain gitScenario ["prog", "t", "s", "z"] = .error .lookup :=
  merge_missing_no_output gitScenario "prog" "t" "s" "z" []
    sourceScenario sourceScenario "z" rfl rfl (by decide) rfl

/-- C10 counterexample: a run with four command-line arguments (more than
three) succeeds and prints the merged manifest, so "more than three
arguments fail" is false. -/
theorem args_extra_counterexample :
    ∃ txt, runMain gitScenario ["prog", "t", "s", "a", "extra"] = .ok txt :=
  ⟨dumps sourceScenario ++ "\n", rfl⟩

/-- C10 amended: with fewer than three command-line arguments the script
fails with `IndexError` and prints nothing; arguments beyond the third are
ignored and do not affect the run. -/
theorem args_amended :
    (∀ (git : String → ProcResult) (argv : List String), argv.length < 4 →
      runMain git argv = .error .argMissing) ∧
    (∀ (git : String → ProcResult) (a0 a1 a2 a3 : String)
      (rest : List String),
      runMain git (a0 :: a1 :: a2 :: a3 :: rest) =
        runMain git [a0, a1, a2, a3]) := by
  constructor
  · intro git argv hlen
    rcases argv with - | ⟨a0, - | ⟨a1, - | ⟨a2, - | ⟨a3, r⟩⟩⟩⟩
    · rfl
    · rfl
    · rfl
    · rfl
    · exact absurd hlen (by simp only [List.length_cons]; omega)
  · intro git a0 a1 a2 a3 rest
    rfl

/-- Witness for the amended C10: one argument fails with `IndexError`. -/
theorem args_amended_witness :
    runMain gitScenario ["prog"] = .error .argMissing :=
  args_amended.1 gitScenario ["prog"] (by decide)
